import Mathlib

/-!
Verification of the zepto8 source fixer (`src/code-fixer.cpp`) and the
PICO-8-extended Lua 5.3 PEG grammar (`zepto8/lua53-parse.h`).

The PEGTL grammar is embedded deeply as a `PEG` term walked by a fuelled
interpreter `run` that mirrors PEGTL 1.x semantics: ordered choice `sor`
backtracks the input position but never rolls back the user state (actions
already applied stay applied — the backtracking artifact the fixer's
`operator_notequal` action works around); `must` turns a local failure into
a global raise (`pegtl::parse_error`); `at` / `not_at` run with actions
disabled.  Actions fire on every successful match of an action-carrying
rule (`operator_notequal`, `reassignment`, `short_if_statement`), exactly
as `analyze_action` does in `code-fixer.cpp`.

External-library primitives used by the fixer (`lol::String::sub`,
`index_of`, `split`, in-place `operator[]` assignment) are modelled with
their standard meanings: `sub a n` is the `n`-character slice starting at
`a` (clamped), `split` on a separator keeps empty fields (so `"a\n"` splits
into two fields `"a"` and `""`), `index_of` returns the first occurrence.
-/

set_option maxRecDepth 20000

namespace Zepto8

/-- Parser input position, mirroring PEGTL 1.x: absolute byte offset,
1-based line, 0-based byte-in-line, plus the remaining input. -/
structure Pos where
  off : Nat
  line : Nat
  col : Nat
  rest : List Char
deriving DecidableEq, Repr

/-- The occurrence lists of `code_fixer` filled in by the analysis actions:
`ne` is `m_notequals` (most recent first; the C++ array pushes/pops at the
back), `rs` is `m_reassignments` in push order as (line, byte-in-line,
match size), `diags` are the logged short-if diagnostics. -/
structure St where
  ne : List Nat
  rs : List (Nat × Nat × Nat)
  diags : List (Nat × Nat)
deriving DecidableEq, Repr

/-- Outcome of running a PEG rule: success with new position, local
failure (backtrackable), or a raised `pegtl::parse_error` carrying the
position.  State is threaded through all three (PEGTL does not roll back
user state on backtracking). -/
inductive Res where
  | ok (p : Pos) (st : St)
  | fail (st : St)
  | raise (p : Pos) (st : St)
deriving DecidableEq, Repr

/-- Named rules: recursion points of the grammar plus the three
action-carrying rules. -/
inductive RName where
  | expressionR
  | exprTenR
  | exprSevenR
  | statementR
  | reassignR
  | notequalR
  | shortIfR
deriving DecidableEq, Repr

/-- Deep embedding of the PEGTL combinators used by `lua53-parse.h`.
`chP` is a single-character class, `until_ e r` is `pegtl::until<E,R>`,
`longBracket` is `pegtl::raw_string<'[','=',']'>` (Lua long brackets),
`ref` names a recursive or action-carrying rule. -/
inductive PEG where
  | eps
  | chP (f : Char → Bool)
  | str (s : List Char)
  | istr (s : List Char)
  | seq (a b : PEG)
  | sor (a b : PEG)
  | star (a : PEG)
  | at_ (a : PEG)
  | notAt (a : PEG)
  | must (a : PEG)
  | until_ (e r : PEG)
  | ref (r : RName)
  | eofP
  | longBracket

/-- Consume one character, updating offset / line / byte-in-line the way
PEGTL 1.x counts positions (line starts at 1, byte-in-line at 0, a
newline bumps the line and resets the column). -/
def advance1 (p : Pos) : Pos :=
  match p.rest with
  | [] => p
  | c :: r =>
    { off := p.off + 1
      line := if c = '\n' then p.line + 1 else p.line
      col := if c = '\n' then 0 else p.col + 1
      rest := r }

/-- Match a literal character sequence. -/
def matchStr : List Char → Pos → Option Pos
  | [], p => some p
  | c :: cs, p =>
    match p.rest with
    | d :: _ => if d = c then matchStr cs (advance1 p) else none
    | [] => none

/-- Match a literal character sequence case-insensitively
(`pegtl::istring`, used only for the `0x` numeral prefix). -/
def matchIStr : List Char → Pos → Option Pos
  | [], p => some p
  | c :: cs, p =>
    match p.rest with
    | d :: _ => if d.toLower = c.toLower then matchIStr cs (advance1 p) else none
    | [] => none

/-- Length of the leading run of `=` characters (long-bracket level). -/
def eqRunLen : List Char → Nat
  | '=' :: r => eqRunLen r + 1
  | _ => 0

/-- Consume `n` characters. -/
def advanceN : Nat → Pos → Pos
  | 0, p => p
  | n + 1, p => advanceN n (advance1 p)

/-- Count and consume a run of `=` characters. -/
def countEq (p : Pos) : Nat × Pos :=
  let n := eqRunLen p.rest
  (n, advanceN n p)

/-- The closing long bracket of level `k`. -/
def closeSeq (k : Nat) : List Char := ']' :: (List.replicate k '=' ++ [']'])

/-- Scan for the closing long bracket, consuming arbitrary content; the
first argument is fuel, always instantiated to more than the remaining
input length.  If the end of input is reached first the whole parse is
raised, matching the `must`-style commitment of `pegtl::raw_string` once
the opening bracket has matched. -/
def lbScanF (k : Nat) : Nat → Pos → St → Res
  | 0, p, st => .raise p st
  | f + 1, p, st =>
    match matchStr (closeSeq k) p with
    | some q => .ok q st
    | none =>
      match p.rest with
      | [] => .raise p st
      | _ :: _ => lbScanF k f (advance1 p) st

def lbScan (k : Nat) (p : Pos) (st : St) : Res :=
  lbScanF k (p.rest.length + 1) p st

/-- Rule `pegtl::raw_string<'[','=',']'>`: a `[`, a run of `=`, a `[`, then content
up to the matching close.  If the opening brackets do not match this is a
local failure. -/
def lbRun (p : Pos) (st : St) : Res :=
  match p.rest with
  | '[' :: _ =>
    let q := countEq (advance1 p)
    match q.2.rest with
    | '[' :: _ => lbScan q.1 (advance1 q.2) st
    | _ => .fail st
  | _ => .fail st

/-- The backtracking workaround of `analyze_action<lua53::operator_notequal>`:
pop recorded `!=` offsets from the most recent end while they are `≥` the
new offset (`while (f.m_notequals.count() && f.m_notequals.last() >= in.byte())
f.m_notequals.pop();`).  The list is kept most-recent-first here. -/
def purge (k : Nat) : List Nat → List Nat
  | [] => []
  | x :: xs => if k ≤ x then purge k xs else x :: xs

/-- Record a fresh `!=` offset after purging stale ones
(`f.m_notequals.push(in.byte())`). -/
def pushNE (k : Nat) (ne : List Nat) : List Nat := k :: purge k ne

/-- The `analyze_action` specializations of `code-fixer.cpp`: record a
`!=` byte offset with the purge, record a reassignment as (line,
byte-in-line, size), record a short-if diagnostic location.  All other
rules inherit `pegtl::nothing`. -/
def applyAct (r : RName) (startP endP : Pos) (st : St) : St :=
  match r with
  | .notequalR => { st with ne := pushNE startP.off st.ne }
  | .reassignR => { st with rs := st.rs ++ [(startP.line, startP.col, endP.off - startP.off)] }
  | .shortIfR => { st with diags := st.diags ++ [(startP.line, startP.col)] }
  | _ => st

end Zepto8

namespace Zepto8

/-- Combinator `pegtl::sor` folded over a list of alternatives (kept in source order). -/
def sors : List PEG → PEG
  | [] => .chP (fun _ => false)
  | [a] => a
  | a :: rest => .sor a (sors rest)

/-- Combinator `pegtl::seq` folded over a list. -/
def seqs : List PEG → PEG
  | [] => .eps
  | [a] => a
  | a :: rest => .seq a (seqs rest)

/-- Combinator `pegtl::opt`. -/
def optP (a : PEG) : PEG := .sor a .eps

/-- Combinator `pegtl::plus`. -/
def plusP (a : PEG) : PEG := .seq a (.star a)

/-- Combinator `pegtl::one< Cs... >`. -/
def oneP (cs : List Char) : PEG := .chP (fun c => cs.contains c)

/-- Combinator `pegtl::not_one< Cs... >` (fails at end of input). -/
def notOneP (cs : List Char) : PEG := .chP (fun c => !cs.contains c)

/-- A single given character. -/
def chQ (c : Char) : PEG := .chP (fun d => d = c)

/-- A literal string rule. -/
def strS (s : String) : PEG := .str s.data

/-- Combinator `pegtl::any`. -/
def anyP : PEG := .chP (fun _ => true)

/-- Combinator `pegtl::until< E >` (consume arbitrary bytes until `E` matches). -/
def untilAny (e : PEG) : PEG := .until_ e anyP

/-- Combinator `pegtl::if_must< A, B... >` = `seq< A, must< B... > >`. -/
def ifMust (a b : PEG) : PEG := .seq a (.must b)

/-- Combinator `pegtl::rep_opt< 2, R >`. -/
def repOpt2 (a : PEG) : PEG := optP (.seq a (optP a))

/-- Combinator `pegtl::pad< R, S >` = `seq< star<S>, R, star<S> >`. -/
def padP (r s : PEG) : PEG := .seq (.star s) (.seq r (.star s))

/-- Combinator `pegtl::pad_opt< R, S >` = `seq< star<S>, opt< R, star<S> > >`. -/
def padOpt (r s : PEG) : PEG := .seq (.star s) (optP (.seq r (.star s)))

/-- Combinator `pegtl::list< R, S, P >` = `seq< R, star< pad<S,P>, R > >`. -/
def listP (r s p : PEG) : PEG := .seq r (.star (.seq (padP s p) r))

/-- Combinator `pegtl::list_must< R, S, P >` = `seq< R, star< pad<S,P>, must<R> > >`. -/
def listMust (r s p : PEG) : PEG := .seq r (.star (.seq (padP s p) (.must r)))

/-- Combinator `pegtl::list_tail< R, S, P >` = `seq< list<R,S,P>, opt< star<P>, S > >`. -/
def listTail (r s p : PEG) : PEG := .seq (listP r s p) (optP (.seq (.star p) s))

/-- Rule `pegtl::eol` (LF or CRLF). -/
def eolP : PEG := .sor (strS "\r\n") (strS "\n")

/-- Rule `pegtl::eolf`. -/
def eolfP : PEG := .sor eolP .eofP

def lbraceC : Char := Char.ofNat 123
def rbraceC : Char := Char.ofNat 125
def quoteC : Char := Char.ofNat 39

/-- Class `pegtl::ascii::space`: space, LF, CR, tab, vertical tab, form feed. -/
def isSpaceC (c : Char) : Bool :=
  c = ' ' || c = '\n' || c = '\r' || c = '\t' || c = Char.ofNat 11 || c = Char.ofNat 12

def isDigitC (c : Char) : Bool := 48 ≤ c.toNat && c.toNat ≤ 57

def isXdigitC (c : Char) : Bool :=
  isDigitC c || (65 ≤ c.toNat && c.toNat ≤ 70) || (97 ≤ c.toNat && c.toNat ≤ 102)

def isAlphaC (c : Char) : Bool :=
  (65 ≤ c.toNat && c.toNat ≤ 90) || (97 ≤ c.toNat && c.toNat ≤ 122)

/-- Class `pegtl::identifier_first`. -/
def isIdFirst (c : Char) : Bool := isAlphaC c || c = '_'

/-- Class `pegtl::identifier_other`. -/
def isIdOther (c : Char) : Bool := isAlphaC c || isDigitC c || c = '_'

/-- Rule `pegtl::identifier`. -/
def identifierP : PEG := .seq (.chP isIdFirst) (.star (.chP isIdOther))

end Zepto8

namespace lua53

open Zepto8

def short_comment : PEG := untilAny eolfP
def long_string : PEG := .longBracket
def comment : PEG := .seq (strS "--") (.sor long_string short_comment)

def sep : PEG := .sor (.chP isSpaceC) comment
def seps : PEG := .star sep

def str_and : PEG := strS "and"
def str_break : PEG := strS "break"
def str_do : PEG := strS "do"
def str_else : PEG := strS "else"
def str_elseif : PEG := strS "elseif"
def str_end : PEG := strS "end"
def str_false : PEG := strS "false"
def str_for : PEG := strS "for"
def str_function : PEG := strS "function"
def str_goto : PEG := strS "goto"
def str_if : PEG := strS "if"
def str_in : PEG := strS "in"
def str_local : PEG := strS "local"
def str_nil : PEG := strS "nil"
def str_not : PEG := strS "not"
def str_or : PEG := strS "or"
def str_repeat : PEG := strS "repeat"
def str_return : PEG := strS "return"
def str_then : PEG := strS "then"
def str_true : PEG := strS "true"
def str_until : PEG := strS "until"
def str_while : PEG := strS "while"

/-- Rule `lua53::str_keyword` in the exact source order (note: the source list
does not contain `str_or`). -/
def str_keyword : PEG := sors
  [str_and, str_break, str_do, str_elseif, str_else, str_end, str_false,
   str_for, str_function, str_goto, str_if, str_in, str_local, str_nil,
   str_not, str_repeat, str_return, str_then, str_true, str_until, str_while]

def keyP (k : PEG) : PEG := .seq k (.notAt (.chP isIdOther))

def key_and : PEG := keyP str_and
def key_break : PEG := keyP str_break
def key_do : PEG := keyP str_do
def key_else : PEG := keyP str_else
def key_elseif : PEG := keyP str_elseif
def key_end : PEG := keyP str_end
def key_false : PEG := keyP str_false
def key_for : PEG := keyP str_for
def key_function : PEG := keyP str_function
def key_goto : PEG := keyP str_goto
def key_if : PEG := keyP str_if
def key_in : PEG := keyP str_in
def key_local : PEG := keyP str_local
def key_nil : PEG := keyP str_nil
def key_not : PEG := keyP str_not
def key_or : PEG := keyP str_or
def key_repeat : PEG := keyP str_repeat
def key_return : PEG := keyP str_return
def key_then : PEG := keyP str_then
def key_true : PEG := keyP str_true
def key_until : PEG := keyP str_until
def key_while : PEG := keyP str_while

def keyword : PEG := keyP str_keyword

def three_dots : PEG := strS "..."

def name : PEG := .seq (.notAt keyword) identifierP

def single : PEG := oneP ['a', 'b', 'f', 'n', 'r', 't', 'v', '\\', '"', quoteC, '0', '\n']
def spaces : PEG := .seq (chQ 'z') (.star (.chP isSpaceC))
def hexbyte : PEG := ifMust (chQ 'x') (.seq (.chP isXdigitC) (.chP isXdigitC))
def decbyte : PEG := ifMust (.chP isDigitC) (repOpt2 (.chP isDigitC))
def unichar : PEG :=
  ifMust (chQ 'u') (seqs [chQ lbraceC, plusP (.chP isXdigitC), chQ rbraceC])
def escaped : PEG := ifMust (chQ '\\') (sors [hexbyte, decbyte, unichar, single, spaces])
def regular : PEG := notOneP ['\r', '\n']
def character : PEG := .sor escaped regular

def short_string (q : Char) : PEG := ifMust (chQ q) (.until_ (chQ q) character)
def literal_string : PEG := sors [short_string '"', short_string quoteC, long_string]

def exponentP (e : PEG) : PEG :=
  optP (ifMust e (.seq (optP (oneP ['+', '-'])) (plusP (.chP isDigitC))))

def numeral_three (d e : PEG) : PEG := .seq (ifMust (chQ '.') (plusP d)) (exponentP e)
def numeral_two (d e : PEG) : PEG :=
  seqs [plusP d, optP (.seq (chQ '.') (.star d)), exponentP e]
def numeral_one (d e : PEG) : PEG := .sor (numeral_two d e) (numeral_three d e)

def decimal : PEG := numeral_one (.chP isDigitC) (oneP ['e', 'E'])
def hexadecimal : PEG := ifMust (.istr ['0', 'x']) (numeral_one (.chP isXdigitC) (oneP ['p', 'P']))
def numeral : PEG := .sor hexadecimal decimal

def expression : PEG := .ref .expressionR
def expr_ten : PEG := .ref .exprTenR
def expr_seven : PEG := .ref .exprSevenR
def statement : PEG := .ref .statementR
def reassignment : PEG := .ref .reassignR
def operator_notequal : PEG := .ref .notequalR

def label_statement : PEG := ifMust (strS "::") (seqs [seps, name, seps, strS "::"])
def goto_statement : PEG := ifMust key_goto (.seq seps name)

def name_list : PEG := listP name (chQ ',') sep
def name_list_must : PEG := listMust name (chQ ',') sep
def expr_list_must : PEG := listMust expression (chQ ',') sep

def statement_return : PEG :=
  .seq (padOpt expr_list_must sep) (optP (.seq (chQ ';') seps))

def statement_list (e : PEG) : PEG :=
  .seq seps (.until_ (.sor e (ifMust key_return (.seq statement_return e))) (.seq statement seps))

def table_field_one : PEG :=
  ifMust (chQ '[') (seqs [seps, expression, seps, chQ ']', seps, chQ '=', seps, expression])
def table_field_two : PEG := ifMust (seqs [name, seps, chQ '=']) (.seq seps expression)
def table_field : PEG := sors [table_field_one, table_field_two, expression]
def table_field_list : PEG := listTail table_field (oneP [',', ';']) sep
def table_constructor : PEG :=
  ifMust (chQ lbraceC) (.seq (padOpt table_field_list sep) (chQ rbraceC))

def parameter_list_one : PEG := .seq name_list (optP (ifMust (padP (chQ ',') sep) three_dots))
def parameter_list : PEG := .sor three_dots parameter_list_one

def function_body (e : PEG) : PEG :=
  seqs [chQ '(', padOpt parameter_list sep, chQ ')', seps, statement_list e]
def function_literal : PEG := ifMust key_function (.seq seps (function_body key_end))

def bracket_expr : PEG := ifMust (chQ '(') (seqs [seps, expression, seps, chQ ')'])

def function_args_one : PEG := ifMust (chQ '(') (.seq (padOpt expr_list_must sep) (chQ ')'))
def function_args : PEG := sors [function_args_one, table_constructor, literal_string]

def variable_tail_one : PEG := ifMust (chQ '[') (seqs [seps, expression, seps, chQ ']'])
def variable_tail_two : PEG := ifMust (.seq (.notAt (strS "..")) (chQ '.')) (.seq seps name)
def variable_tail : PEG := .sor variable_tail_one variable_tail_two

def function_call_tail_one : PEG :=
  ifMust (.seq (.notAt (strS "::")) (chQ ':')) (seqs [seps, name, seps, function_args])
def function_call_tail : PEG := .sor function_args function_call_tail_one

def variable_head_one : PEG := seqs [bracket_expr, seps, variable_tail]
def variable_head : PEG := .sor name variable_head_one

def function_call_head : PEG := .sor name bracket_expr

def variable' : PEG :=
  .seq variable_head (.star (seqs [.star (.seq seps function_call_tail), seps, variable_tail]))
def function_call : PEG :=
  .seq function_call_head (plusP (.until_ (.seq seps function_call_tail) (.seq seps variable_tail)))

def op_one (o : Char) (n : List Char) : PEG := .seq (chQ o) (.at_ (notOneP n))
def op_two (o p : Char) (n : List Char) : PEG := .seq (.str [o, p]) (.at_ (notOneP n))

def left_assoc (s o : PEG) : PEG :=
  seqs [s, seps, .star (ifMust o (seqs [seps, s, seps]))]

def unary_operators : PEG := sors [chQ '-', chQ '#', op_one '~' ['='], key_not]

def expr_thirteen : PEG :=
  .seq (.sor bracket_expr name) (.star (.seq seps (.sor function_call_tail variable_tail)))
def expr_twelve : PEG := sors
  [key_nil, key_true, key_false, three_dots, numeral, literal_string,
   function_literal, expr_thirteen, table_constructor]
def expr_eleven : PEG :=
  seqs [expr_twelve, seps, optP (seqs [chQ '^', seps, expr_ten, seps])]
def unary_apply : PEG := ifMust unary_operators (seqs [seps, expr_ten, seps])
def expr_ten_body : PEG := .sor unary_apply expr_eleven
def operators_nine : PEG := sors [strS "//", chQ '/', chQ '*', chQ '%']
def expr_nine : PEG := left_assoc expr_ten operators_nine
def operators_eight : PEG := .sor (chQ '+') (chQ '-')
def expr_eight : PEG := left_assoc expr_nine operators_eight
def expr_seven_body : PEG :=
  seqs [expr_eight, seps, optP (ifMust (op_two '.' '.' ['.']) (.seq seps expr_seven))]
def operators_six : PEG := .sor (strS "<<") (strS ">>")
def expr_six : PEG := left_assoc expr_seven operators_six
def expr_five : PEG := left_assoc expr_six (chQ '&')
def expr_four : PEG := left_assoc expr_five (op_one '~' ['='])
def expr_three : PEG := left_assoc expr_four (chQ '|')
def operators_two : PEG := sors
  [strS "==", strS "<=", strS ">=", op_one '<' ['<'], op_one '>' ['>'],
   operator_notequal, strS "~="]
def expr_two : PEG := left_assoc expr_three operators_two
def expr_one : PEG := left_assoc expr_two key_and
def expression_body : PEG := left_assoc expr_one key_or

def do_statement : PEG := ifMust key_do (statement_list key_end)
def while_statement : PEG :=
  ifMust key_while (seqs [seps, expression, seps, key_do, statement_list key_end])
def repeat_statement : PEG :=
  ifMust key_repeat (seqs [statement_list key_until, seps, expression])

def at_elseif_else_end : PEG := sors [.at_ key_elseif, .at_ key_else, .at_ key_end]
def elseif_statement : PEG :=
  ifMust key_elseif (seqs [seps, expression, seps, key_then, statement_list at_elseif_else_end])
def else_statement : PEG := ifMust key_else (statement_list key_end)
def if_statement : PEG :=
  ifMust key_if (seqs
    [seps, expression, seps, key_then, statement_list at_elseif_else_end, seps,
     .until_ (.sor else_statement key_end) (.seq elseif_statement seps)])

def short_if_statement : PEG :=
  seqs [key_if, seps, bracket_expr, seps, .notAt key_then, untilAny (.at_ (.sor eolfP key_end))]

def for_statement_one : PEG := seqs
  [name, seps, chQ '=', seps, expression, seps, chQ ',', seps, expression,
   padOpt (ifMust (chQ ',') (.seq seps expression)) sep, key_do, statement_list key_end]
def for_statement_two : PEG :=
  seqs [name_list_must, seps, key_in, seps, expr_list_must, seps, key_do, statement_list key_end]
def for_statement : PEG := ifMust key_for (.seq seps (.sor for_statement_one for_statement_two))

def operators_reassign : PEG := sors [strS "+=", strS "-=", strS "*=", strS "/=", strS "%="]
def reassignment_body : PEG := seqs [variable', seps, operators_reassign, seps, expr_list_must]

def assignment_variable_list : PEG := listMust variable' (chQ ',') sep
def assignments_one : PEG := ifMust (chQ '=') (.seq seps expr_list_must)
def assignments : PEG := seqs [assignment_variable_list, seps, assignments_one]
def function_name : PEG :=
  seqs [listP name (chQ '.') sep, seps, optP (ifMust (chQ ':') (seqs [seps, name, seps]))]
def function_definition : PEG :=
  ifMust key_function (.seq seps (.seq function_name (function_body key_end)))

def local_function : PEG := ifMust key_function (seqs [seps, name, seps, function_body key_end])
def local_variables : PEG := ifMust name_list_must (.seq seps (optP assignments_one))
def local_statement : PEG := ifMust key_local (.seq seps (.sor local_function local_variables))

def semicolon : PEG := chQ ';'

/-- Rule `lua53::statement`: the ordered list of statement alternatives.  The
PICO-8 `reassignment` extension is included; `short_if_statement` is NOT —
it is commented out in the source (`// FIXME: doesn't work properly yet`). -/
def statement_body : PEG := sors
  [semicolon, assignments, reassignment, function_call, label_statement,
   key_break, goto_statement, do_statement, while_statement, repeat_statement,
   if_statement, for_statement, function_definition, local_statement]

def interpreter : PEG := .seq (chQ '#') (untilAny eolfP)
def grammar : PEG := .must (.seq (optP interpreter) (statement_list .eofP))

/-- Bodies of the named rules. -/
def rules : RName → PEG
  | .expressionR => expression_body
  | .exprTenR => expr_ten_body
  | .exprSevenR => expr_seven_body
  | .statementR => statement_body
  | .reassignR => reassignment_body
  | .notequalR => .str ['!', '=']
  | .shortIfR => short_if_statement

end lua53

namespace Zepto8

/-- The PEG interpreter, mirroring PEGTL 1.x control flow.  `act` tracks
whether actions are enabled (they are disabled inside `at`/`not_at`).
Fuel decreases on every recursive call; running out of fuel raises, which
never happens for the fuel budgets used below. -/
def run : Nat → Bool → PEG → Pos → St → Res
  | 0, _, _, p, st => .raise p st
  | Nat.succ fuel, act, g, p, st =>
    match g with
    | .eps => .ok p st
    | .chP f =>
      match p.rest with
      | c :: _ => if f c then .ok (advance1 p) st else .fail st
      | [] => .fail st
    | .str s =>
      match matchStr s p with
      | some q => .ok q st
      | none => .fail st
    | .istr s =>
      match matchIStr s p with
      | some q => .ok q st
      | none => .fail st
    | .seq a b =>
      match run fuel act a p st with
      | .ok q st1 => run fuel act b q st1
      | r => r
    | .sor a b =>
      match run fuel act a p st with
      | .fail st1 => run fuel act b p st1
      | r => r
    | .star a =>
      match run fuel act a p st with
      | .ok q st1 => run fuel act (.star a) q st1
      | .fail st1 => .ok p st1
      | r => r
    | .at_ a =>
      match run fuel false a p st with
      | .ok _ st1 => .ok p st1
      | .fail st1 => .fail st1
      | r => r
    | .notAt a =>
      match run fuel false a p st with
      | .ok _ st1 => .fail st1
      | .fail st1 => .ok p st1
      | r => r
    | .must a =>
      match run fuel act a p st with
      | .fail st1 => .raise p st1
      | r => r
    | .until_ e r =>
      match run fuel act e p st with
      | .ok q st1 => .ok q st1
      | .raise q st1 => .raise q st1
      | .fail st1 =>
        match run fuel act r p st1 with
        | .ok q st2 => run fuel act (.until_ e r) q st2
        | .fail st2 => .fail st2
        | .raise q st2 => .raise q st2
    | .ref rn =>
      match run fuel act (lua53.rules rn) p st with
      | .ok q st1 => .ok q (if act then applyAct rn p q st1 else st1)
      | r => r
    | .eofP =>
      match p.rest with
      | [] => .ok p st
      | _ => .fail st
    | .longBracket => lbRun p st

/-- The boot-shim fragment some PICO-8 versions append
(`code_fixer::code_fixer`). -/
def bootShim : List Char := "if(_update60)_update=function()".data

/-- Its standard-syntax replacement, with the mandatory leading newline. -/
def bootShimValid : List Char := "\nif(_update60)then _update=function()".data

/-- First index at which `pat` occurs in the text (`lol::String::index_of`). -/
def findSub (pat : List Char) : List Char → Option Nat
  | [] => if pat = [] then some 0 else none
  | c :: r =>
    if pat.isPrefixOf (c :: r) then some 0
    else
      match findSub pat r with
      | some i => some (i + 1)
      | none => none

/-- The pre-parse boot-shim patch: replace the first occurrence of the
invalid fragment with the valid one and append a closing `" end"` to the
whole code (`m_code = m_code.sub(0, tofix) + valid +
m_code.sub(tofix + strlen(invalid)) + " end";`). -/
def patch (code : List Char) : List Char :=
  match findSub bootShim code with
  | none => code
  | some i => code.take i ++ bootShimValid ++ code.drop (i + bootShim.length) ++ " end".data

/-- Apply the recorded `!=` offsets: each recorded offset has its (single)
character overwritten with `~` (`new_code[offset] = '~';`).  The C++ loop
walks the array oldest-first; `ne` is most-recent-first, so `foldr`. -/
def applyNE (ne : List Nat) (s : List Char) : List Char :=
  ne.foldr (fun k acc => acc.set k '~') s

/-- Split on newline separators, keeping empty fields
(`new_code.split('\n')`). -/
def splitNl : List Char → List (List Char)
  | [] => [[]]
  | c :: r =>
    if c = '\n' then [] :: splitNl r
    else
      match splitNl r with
      | [] => [[c]]
      | l :: ls => (c :: l) :: ls

/-- Rebuild the code: every processed line gets a `'\n'` appended
(`new_code += line + '\n';`). -/
def joinNl : List (List Char) → List Char
  | [] => []
  | l :: ls => l ++ '\n' :: joinNl ls

/-- The `n`-character slice starting at `a` (`lol::String::sub(a, n)`). -/
def subL (s : List Char) (a n : Nat) : List Char := (s.drop a).take n

/-- The compound-assignment operator characters (`strchr("+-*/%", ...)`). -/
def opsC : List Char := ['+', '-', '*', '/', '%']

/-- Scan forward from `byte` for the first position holding `'='` whose
predecessor is one of `+-*/%` (the inner `for` loop of the rewrite pass).
At `byte = 0` the C++ code would read `line[-1]`; recorded occurrences
never start at an `=`, and `'='` is not an operator character, so probing
index `0` twice is an equivalent total model. -/
def findOpF (line : List Char) : Nat → Nat → Option Nat
  | 0, _ => none
  | f + 1, byte =>
    if byte < line.length then
      if line.getD byte ' ' = '=' && opsC.contains (line.getD (byte - 1) ' ') then some byte
      else findOpF line f (byte + 1)
    else none

def findOp (line : List Char) (byte : Nat) : Option Nat :=
  findOpF line (line.length + 1) byte

/-- Rewrite one recorded reassignment occurrence `(start, len)` inside a
line, following `String::format("%s=%s%c(%s)%s", ...)`: text before the
operator, `=`, the left-hand side again, the operator, the parenthesized
right-hand side, the tail after the occurrence. -/
def rewriteOnce (start len : Nat) (line : List Char) : List Char :=
  match findOp line start with
  | none => line
  | some byte =>
    subL line 0 (byte - 1) ++ '=' :: subL line start (byte - 1 - start)
      ++ line.getD (byte - 1) ' ' :: '(' :: subL line (byte + 1) (start + len - byte - 1)
      ++ ')' :: line.drop (start + len)

/-- Process one line: every recorded occurrence whose line number matches
`l + 1` rewrites the current line in recording order. -/
def fixLine (rs : List (Nat × Nat × Nat)) (l : Nat) (line : List Char) : List Char :=
  rs.foldl (fun ln item => if item.1 = l + 1 then rewriteOnce item.2.1 item.2.2 ln else ln) line

/-- Process the line list, counting lines from index 0 (line number `l+1`). -/
def fixLines (rs : List (Nat × Nat × Nat)) : Nat → List (List Char) → List (List Char)
  | _, [] => []
  | l, line :: rest => fixLine rs l line :: fixLines rs (l + 1) rest

/-- The compound-assignment lowering pass of `code_fixer::fix`. -/
def reasgPass (rs : List (Nat × Nat × Nat)) (t : List Char) : List Char :=
  joinNl (fixLines rs 0 (splitNl t))

/-- The whole rewrite phase: `!=` substitution, then line-based lowering. -/
def render (st : St) (pc : List Char) : List Char :=
  reasgPass st.rs (applyNE st.ne pc)

def startPos (s : List Char) : Pos := ⟨0, 1, 0, s⟩

def initSt : St := ⟨[], [], []⟩

/-- Fuel budget for a parse: generously linear in the input size. -/
def fuelFor (s : List Char) : Nat := 200 * s.length + 1000

/-- The analysis parse of `code_fixer::fix`: run the grammar with the
analysis actions over the (already patched) code, with fresh occurrence
lists. -/
def analyze (s : List Char) : Res :=
  run (fuelFor s) true lua53.grammar (startPos s) initSt

/-- Model of `code_fixer::fix` end to end on a given cartridge source: boot-shim
patch, analysis parse, then rewrite.  A raised parse error aborts with its
location (line, byte-in-line, byte offset) before any rewrite. -/
def fixResult (code : List Char) : Except (Nat × Nat × Nat) (List Char) :=
  let pc := patch code
  match analyze pc with
  | .ok _ st => .ok (render st pc)
  | .fail st => .ok (render st pc)
  | .raise p _ => .error (p.line, p.col, p.off)

/-- The lines of a text under the usual convention that a trailing newline
terminates the last line rather than opening a new one. -/
def textLines (s : List Char) : List (List Char) :=
  let ls := splitNl s
  if ls.getLast? = some [] then ls.dropLast else ls

end Zepto8

namespace Zepto8

/-- A position is well-formed with respect to a fixed source when its
remaining input is the corresponding suffix of that source. -/
def Wf (src : List Char) (p : Pos) : Prop := p.rest = src.drop p.off

/-- Every recorded `!=` offset points at a literal `!` followed by `=`. -/
def NePointsAt (src : List Char) (ne : List Nat) : Prop :=
  ∀ k ∈ ne, src[k]? = some '!' ∧ src[k + 1]? = some '='

/-- The recorded offsets are strictly decreasing most-recent-first, i.e.
strictly increasing in the order the C++ array stores and iterates them. -/
def NeSorted (ne : List Nat) : Prop := List.Chain' (· > ·) ne

/-- The state invariant maintained by the analysis parse. -/
def NeInv (src : List Char) (ne : List Nat) : Prop :=
  NePointsAt src ne ∧ NeSorted ne

/-- The invariant carried by every interpreter outcome. -/
def ResOk (src : List Char) : Res → Prop
  | .ok p st => Wf src p ∧ NeInv src st.ne
  | .fail st => NeInv src st.ne
  | .raise _ st => NeInv src st.ne

/-- The state component of an interpreter outcome. -/
def stateOf : Res → St
  | .ok _ st => st
  | .fail st => st
  | .raise _ st => st

/-- True when a PEG term contains no named-rule reference.  The three
action-carrying rules are named rules, so running a reference-free term
can never record an occurrence or a diagnostic: its state is returned
untouched (`run_refFree`).  All the string and comment rules of the
grammar are reference-free. -/
def refFree : PEG → Bool
  | .eps => true
  | .chP _ => true
  | .str _ => true
  | .istr _ => true
  | .seq a b => refFree a && refFree b
  | .sor a b => refFree a && refFree b
  | .star a => refFree a
  | .at_ a => refFree a
  | .notAt a => refFree a
  | .must a => refFree a
  | .until_ e r => refFree e && refFree r
  | .ref _ => false
  | .eofP => true
  | .longBracket => true

end Zepto8

namespace Zepto8

theorem wf_advance1 {src : List Char} {p : Pos} (h : Wf src p) : Wf src (advance1 p) := by
  unfold Wf at *
  cases hr : p.rest with
  | nil =>
    have he : advance1 p = p := by simp [advance1, hr]
    rw [he]
    exact h
  | cons c r =>
    simp only [advance1, hr]
    rw [hr] at h
    rw [← List.tail_drop src p.off, ← h]
    rfl

theorem wf_matchStr {src : List Char} :
    ∀ (s : List Char) (p q : Pos), Wf src p → matchStr s p = some q → Wf src q := by
  intro s
  induction s with
  | nil => intro p q hp h; simp [matchStr] at h; rw [← h]; exact hp
  | cons c cs ih =>
    intro p q hp h
    unfold matchStr at h
    cases hr : p.rest with
    | nil => rw [hr] at h; simp at h
    | cons d r =>
      rw [hr] at h
      simp only at h
      by_cases hd : d = c
      · simp [hd] at h
        exact ih (advance1 p) q (wf_advance1 hp) h
      · simp [hd] at h

theorem matchStr_prefix :
    ∀ (s : List Char) (p q : Pos), matchStr s p = some q → s <+: p.rest := by
  intro s
  induction s with
  | nil => intro p q _; exact List.nil_prefix
  | cons c cs ih =>
    intro p q h
    unfold matchStr at h
    cases hr : p.rest with
    | nil => rw [hr] at h; simp at h
    | cons d r =>
      rw [hr] at h
      simp only at h
      by_cases hd : d = c
      · simp [hd] at h
        have h2 := ih (advance1 p) q h
        have hrr : (advance1 p).rest = r := by simp [advance1, hr]
        rw [hrr] at h2
        subst hd
        exact List.cons_prefix_cons.mpr ⟨rfl, h2⟩
      · simp [hd] at h

end Zepto8

namespace Zepto8

theorem wf_matchIStr {src : List Char} :
    ∀ (s : List Char) (p q : Pos), Wf src p → matchIStr s p = some q → Wf src q := by
  intro s
  induction s with
  | nil => intro p q hp h; simp [matchIStr] at h; rw [← h]; exact hp
  | cons c cs ih =>
    intro p q hp h
    unfold matchIStr at h
    cases hr : p.rest with
    | nil => rw [hr] at h; simp at h
    | cons d r =>
      rw [hr] at h
      simp only at h
      by_cases hd : d.toLower = c.toLower
      · simp [hd] at h
        exact ih (advance1 p) q (wf_advance1 hp) h
      · simp [hd] at h

theorem wf_advanceN {src : List Char} :
    ∀ (n : Nat) (p : Pos), Wf src p → Wf src (advanceN n p) := by
  intro n
  induction n with
  | zero => intro p hp; exact hp
  | succ m ih => intro p hp; exact ih (advance1 p) (wf_advance1 hp)

theorem lbScanF_spec {src : List Char} :
    ∀ (f k : Nat) (p : Pos) (st : St), Wf src p →
      (∀ q st', lbScanF k f p st = .ok q st' → Wf src q ∧ st' = st) ∧
      (∀ q st', lbScanF k f p st = .raise q st' → st' = st) ∧
      (∀ st', lbScanF k f p st ≠ .fail st') := by
  intro f
  induction f with
  | zero =>
    intro k p st hp
    refine ⟨?_, ?_, ?_⟩
    · intro q st' h; simp [lbScanF] at h
    · intro q st' h; simp [lbScanF] at h; exact h.2.symm
    · intro st' h; simp [lbScanF] at h
  | succ f2 ih =>
    intro k p st hp
    unfold lbScanF
    cases hm : matchStr (closeSeq k) p with
    | some q2 =>
      refine ⟨?_, ?_, ?_⟩
      · intro q st' h
        simp at h
        exact ⟨h.1 ▸ wf_matchStr _ p q2 hp hm, h.2.symm⟩
      · intro q st' h; simp at h
      · intro st' h; simp at h
    | none =>
      cases hr : p.rest with
      | nil =>
        refine ⟨?_, ?_, ?_⟩
        · intro q st' h; simp at h
        · intro q st' h; simp at h; exact h.2.symm
        · intro st' h; simp at h
      | cons c r =>
        exact ih k (advance1 p) st (wf_advance1 hp)

theorem lbRun_spec {src : List Char} (p : Pos) (st : St) (hp : Wf src p) :
    (∀ q st', lbRun p st = .ok q st' → Wf src q ∧ st' = st) ∧
    (∀ q st', lbRun p st = .raise q st' → st' = st) ∧
    (∀ st', lbRun p st = .fail st' → st' = st) := by
  unfold lbRun
  cases hr : p.rest with
  | nil =>
    refine ⟨?_, ?_, ?_⟩
    · intro q st' h; simp at h
    · intro q st' h; simp at h
    · intro st' h; simp at h; exact h.symm
  | cons c r =>
    by_cases hc : c = '['
    · subst hc
      simp only
      have hq2 : Wf src (countEq (advance1 p)).2 :=
        wf_advanceN _ _ (wf_advance1 hp)
      cases hr2 : (countEq (advance1 p)).2.rest with
      | nil =>
        refine ⟨?_, ?_, ?_⟩
        · intro q st' h; simp [hr2] at h
        · intro q st' h; simp [hr2] at h
        · intro st' h; simp [hr2] at h; exact h.symm
      | cons c2 r2 =>
        by_cases hc2 : c2 = '['
        · subst hc2
          simp only [hr2]
          have := @lbScanF_spec src
            ((advance1 (countEq (advance1 p)).2).rest.length + 1)
            (countEq (advance1 p)).1 (advance1 (countEq (advance1 p)).2) st
            (wf_advance1 hq2)
          exact ⟨this.1, this.2.1, fun st' h => absurd h (this.2.2 st')⟩
        · refine ⟨?_, ?_, ?_⟩
          · intro q st' h; simp [hr2, hc2] at h
          · intro q st' h; simp [hr2, hc2] at h
          · intro st' h; simp [hr2, hc2] at h; exact h.symm
    · refine ⟨?_, ?_, ?_⟩
      · intro q st' h; simp [hc] at h
      · intro q st' h; simp [hc] at h
      · intro st' h; simp [hc] at h; exact h.symm

end Zepto8

namespace Zepto8

theorem lbScanF_st (k : Nat) :
    ∀ (f : Nat) (p : Pos) (st : St), stateOf (lbScanF k f p st) = st := by
  intro f
  induction f with
  | zero => intro p st; rfl
  | succ f2 ih =>
    intro p st
    unfold lbScanF
    cases hm : matchStr (closeSeq k) p with
    | some q => rfl
    | none =>
      cases hr : p.rest with
      | nil => rfl
      | cons c r => exact ih (advance1 p) st

theorem lbRun_st (p : Pos) (st : St) : stateOf (lbRun p st) = st := by
  unfold lbRun
  cases hr : p.rest with
  | nil => rfl
  | cons c r =>
    by_cases hc : c = '['
    · subst hc
      simp only
      cases hr2 : (countEq (advance1 p)).2.rest with
      | nil => simp [hr2]; rfl
      | cons c2 r2 =>
        by_cases hc2 : c2 = '['
        · subst hc2
          simp only [hr2]
          exact lbScanF_st (countEq (advance1 p)).1 _ (advance1 (countEq (advance1 p)).2) st
        · simp [hr2, hc2]; rfl
    · simp [hc]; rfl

theorem run_refFree :
    ∀ (fuel : Nat) (act : Bool) (g : PEG), refFree g = true →
      ∀ (p : Pos) (st : St), stateOf (run fuel act g p st) = st := by
  intro fuel
  induction fuel with
  | zero => intro act g _ p st; rfl
  | succ f ih =>
    intro act g hg p st
    cases g with
    | eps => rfl
    | chP fn =>
      simp only [run]
      cases hr : p.rest with
      | nil => rfl
      | cons c r =>
        show stateOf (if fn c = true then Res.ok (advance1 p) st else Res.fail st) = st
        by_cases hc : fn c = true
        · rw [if_pos hc]; rfl
        · rw [if_neg hc]; rfl
    | str s =>
      simp only [run]
      cases hm : matchStr s p with
      | some q => rfl
      | none => rfl
    | istr s =>
      simp only [run]
      cases hm : matchIStr s p with
      | some q => rfl
      | none => rfl
    | seq a b =>
      simp only [refFree, Bool.and_eq_true] at hg
      simp only [run]
      cases h1 : run f act a p st with
      | ok q st1 =>
        have e1 := ih act a hg.1 p st
        rw [h1] at e1
        simp only [stateOf] at e1
        subst e1
        exact ih act b hg.2 q st1
      | fail st1 =>
        have e1 := ih act a hg.1 p st
        rw [h1] at e1
        exact e1
      | raise q st1 =>
        have e1 := ih act a hg.1 p st
        rw [h1] at e1
        exact e1
    | sor a b =>
      simp only [refFree, Bool.and_eq_true] at hg
      simp only [run]
      cases h1 : run f act a p st with
      | ok q st1 =>
        have e1 := ih act a hg.1 p st
        rw [h1] at e1
        exact e1
      | fail st1 =>
        have e1 := ih act a hg.1 p st
        rw [h1] at e1
        simp only [stateOf] at e1
        subst e1
        exact ih act b hg.2 p st1
      | raise q st1 =>
        have e1 := ih act a hg.1 p st
        rw [h1] at e1
        exact e1
    | star a =>
      have hga : refFree a = true := hg
      simp only [run]
      cases h1 : run f act a p st with
      | ok q st1 =>
        have e1 := ih act a hga p st
        rw [h1] at e1
        simp only [stateOf] at e1
        subst e1
        exact ih act (.star a) hg q st1
      | fail st1 =>
        have e1 := ih act a hga p st
        rw [h1] at e1
        exact e1
      | raise q st1 =>
        have e1 := ih act a hga p st
        rw [h1] at e1
        exact e1
    | at_ a =>
      have hga : refFree a = true := hg
      simp only [run]
      cases h1 : run f false a p st with
      | ok q st1 =>
        have e1 := ih false a hga p st
        rw [h1] at e1
        exact e1
      | fail st1 =>
        have e1 := ih false a hga p st
        rw [h1] at e1
        exact e1
      | raise q st1 =>
        have e1 := ih false a hga p st
        rw [h1] at e1
        exact e1
    | notAt a =>
      have hga : refFree a = true := hg
      simp only [run]
      cases h1 : run f false a p st with
      | ok q st1 =>
        have e1 := ih false a hga p st
        rw [h1] at e1
        exact e1
      | fail st1 =>
        have e1 := ih false a hga p st
        rw [h1] at e1
        exact e1
      | raise q st1 =>
        have e1 := ih false a hga p st
        rw [h1] at e1
        exact e1
    | must a =>
      have hga : refFree a = true := hg
      simp only [run]
      cases h1 : run f act a p st with
      | ok q st1 =>
        have e1 := ih act a hga p st
        rw [h1] at e1
        exact e1
      | fail st1 =>
        have e1 := ih act a hga p st
        rw [h1] at e1
        exact e1
      | raise q st1 =>
        have e1 := ih act a hga p st
        rw [h1] at e1
        exact e1
    | until_ e r =>
      simp only [refFree, Bool.and_eq_true] at hg
      simp only [run]
      cases h1 : run f act e p st with
      | ok q st1 =>
        have e1 := ih act e hg.1 p st
        rw [h1] at e1
        exact e1
      | raise q st1 =>
        have e1 := ih act e hg.1 p st
        rw [h1] at e1
        exact e1
      | fail st1 =>
        have e1 := ih act e hg.1 p st
        rw [h1] at e1
        simp only [stateOf] at e1
        subst e1
        change stateOf (match run f act r p st1 with
          | Res.ok q2 st2 => run f act (PEG.until_ e r) q2 st2
          | Res.fail st2 => Res.fail st2
          | Res.raise q2 st2 => Res.raise q2 st2) = st1
        cases h2 : run f act r p st1 with
        | ok q st2 =>
          have e2 := ih act r hg.2 p st1
          rw [h2] at e2
          simp only [stateOf] at e2
          subst e2
          exact ih act (.until_ e r) (by simp [refFree, hg.1, hg.2]) q st2
        | fail st2 =>
          have e2 := ih act r hg.2 p st1
          rw [h2] at e2
          exact e2
        | raise q st2 =>
          have e2 := ih act r hg.2 p st1
          rw [h2] at e2
          exact e2
    | ref rn => simp [refFree] at hg
    | eofP =>
      simp only [run]
      cases hr : p.rest with
      | nil => rfl
      | cons c r => rfl
    | longBracket =>
      simp only [run]
      exact lbRun_st p st

theorem mem_purge {k : Nat} : ∀ {ne : List Nat} {x : Nat}, x ∈ purge k ne → x ∈ ne := by
  intro ne
  induction ne with
  | nil => intro x h; simp [purge] at h
  | cons a t ih =>
    intro x h
    unfold purge at h
    by_cases ha : k ≤ a
    · simp [ha] at h; exact List.mem_cons_of_mem a (ih h)
    · simp [ha] at h; exact List.mem_cons.mpr h

theorem purge_all_lt {k : Nat} :
    ∀ {ne : List Nat}, NeSorted ne → ∀ x ∈ purge k ne, x < k := by
  intro ne
  induction ne with
  | nil => intro _ x h; simp [purge] at h
  | cons a t ih =>
    intro hs x h
    unfold purge at h
    by_cases ha : k ≤ a
    · simp [ha] at h
      exact ih (List.Chain'.tail hs) x h
    · simp [ha] at h
      have hpw := (List.chain'_iff_pairwise).mp hs
      rcases h with h | h
      · omega
      · have := (List.pairwise_cons.mp hpw).1 x h
        omega

theorem purge_chain {k : Nat} :
    ∀ {ne : List Nat}, NeSorted ne → NeSorted (purge k ne) := by
  intro ne
  induction ne with
  | nil => intro _; simp [purge, NeSorted]
  | cons a t ih =>
    intro hs
    unfold purge
    by_cases ha : k ≤ a
    · simp [ha]; exact ih (List.Chain'.tail hs)
    · simp [ha]; exact hs

theorem pushNE_chain {k : Nat} {ne : List Nat} (hs : NeSorted ne) :
    NeSorted (pushNE k ne) := by
  unfold pushNE NeSorted
  rw [List.chain'_cons']
  constructor
  · intro b hb
    have hmem : b ∈ purge k ne := List.mem_of_mem_head? hb
    exact purge_all_lt hs b hmem
  · exact purge_chain hs

theorem pushNE_points {src : List Char} {k : Nat} {ne : List Nat}
    (h : NePointsAt src ne) (h1 : src[k]? = some '!') (h2 : src[k + 1]? = some '=') :
    NePointsAt src (pushNE k ne) := by
  intro x hx
  unfold pushNE at hx
  rcases List.mem_cons.mp hx with hx | hx
  · subst hx; exact ⟨h1, h2⟩
  · exact h x (mem_purge hx)

theorem purge_discards {k : Nat} {ne : List Nat} (hs : NeSorted ne) :
    ∀ x ∈ ne, k ≤ x → x ∉ purge k ne := by
  intro x _ hk hmem
  have := purge_all_lt hs x hmem
  omega

end Zepto8

namespace Zepto8

theorem run_str_ok {f : Nat} {act : Bool} {s : List Char} {p q : Pos} {st st' : St}
    (h : run f act (.str s) p st = .ok q st') : st' = st ∧ matchStr s p = some q := by
  cases f with
  | zero => simp [run] at h
  | succ f2 =>
    simp only [run] at h
    cases hm : matchStr s p with
    | some q2 => rw [hm] at h; simp at h; exact ⟨h.2.symm, h.1 ▸ rfl⟩
    | none => rw [hm] at h; simp at h

theorem applyAct_ne_other {rn : RName} {p q : Pos} {st : St} (h : rn ≠ .notequalR) :
    (applyAct rn p q st).ne = st.ne := by
  cases rn <;> simp [applyAct] at h ⊢

theorem runInv (src : List Char) :
    ∀ (fuel : Nat) (act : Bool) (g : PEG) (p : Pos) (st : St),
      Wf src p → NeInv src st.ne → ResOk src (run fuel act g p st) := by
  intro fuel
  induction fuel with
  | zero => intro act g p st _ hs; simpa [run, ResOk] using hs
  | succ f ih =>
    intro act g p st hp hs
    cases g with
    | eps => simpa [run, ResOk] using ⟨hp, hs⟩
    | chP fn =>
      simp only [run]
      cases hr : p.rest with
      | nil => simpa [ResOk] using hs
      | cons c r =>
        by_cases hc : fn c = true
        · simpa [hc, ResOk] using ⟨wf_advance1 hp, hs⟩
        · simpa [hc, ResOk] using hs
    | str s =>
      simp only [run]
      cases hm : matchStr s p with
      | some q => simpa [ResOk] using ⟨wf_matchStr s p q hp hm, hs⟩
      | none => simpa [ResOk] using hs
    | istr s =>
      simp only [run]
      cases hm : matchIStr s p with
      | some q => simpa [ResOk] using ⟨wf_matchIStr s p q hp hm, hs⟩
      | none => simpa [ResOk] using hs
    | seq a b =>
      simp only [run]
      cases h1 : run f act a p st with
      | ok q st1 =>
        have r1 := ih act a p st hp hs
        rw [h1] at r1
        obtain ⟨hw1, hn1⟩ := r1
        exact ih act b q st1 hw1 hn1
      | fail st1 =>
        have r1 := ih act a p st hp hs
        rw [h1] at r1
        exact r1
      | raise q st1 =>
        have r1 := ih act a p st hp hs
        rw [h1] at r1
        exact r1
    | sor a b =>
      simp only [run]
      cases h1 : run f act a p st with
      | ok q st1 =>
        have r1 := ih act a p st hp hs
        rw [h1] at r1
        exact r1
      | fail st1 =>
        have r1 := ih act a p st hp hs
        rw [h1] at r1
        exact ih act b p st1 hp r1
      | raise q st1 =>
        have r1 := ih act a p st hp hs
        rw [h1] at r1
        exact r1
    | star a =>
      simp only [run]
      cases h1 : run f act a p st with
      | ok q st1 =>
        have r1 := ih act a p st hp hs
        rw [h1] at r1
        obtain ⟨hw1, hn1⟩ := r1
        exact ih act (.star a) q st1 hw1 hn1
      | fail st1 =>
        have r1 := ih act a p st hp hs
        rw [h1] at r1
        exact ⟨hp, r1⟩
      | raise q st1 =>
        have r1 := ih act a p st hp hs
        rw [h1] at r1
        exact r1
    | at_ a =>
      simp only [run]
      cases h1 : run f false a p st with
      | ok q st1 =>
        have r1 := ih false a p st hp hs
        rw [h1] at r1
        exact ⟨hp, r1.2⟩
      | fail st1 =>
        have r1 := ih false a p st hp hs
        rw [h1] at r1
        exact r1
      | raise q st1 =>
        have r1 := ih false a p st hp hs
        rw [h1] at r1
        exact r1
    | notAt a =>
      simp only [run]
      cases h1 : run f false a p st with
      | ok q st1 =>
        have r1 := ih false a p st hp hs
        rw [h1] at r1
        exact r1.2
      | fail st1 =>
        have r1 := ih false a p st hp hs
        rw [h1] at r1
        exact ⟨hp, r1⟩
      | raise q st1 =>
        have r1 := ih false a p st hp hs
        rw [h1] at r1
        exact r1
    | must a =>
      simp only [run]
      cases h1 : run f act a p st with
      | ok q st1 =>
        have r1 := ih act a p st hp hs
        rw [h1] at r1
        exact r1
      | fail st1 =>
        have r1 := ih act a p st hp hs
        rw [h1] at r1
        exact r1
      | raise q st1 =>
        have r1 := ih act a p st hp hs
        rw [h1] at r1
        exact r1
    | until_ e r =>
      simp only [run]
      cases h1 : run f act e p st with
      | ok q st1 =>
        have r1 := ih act e p st hp hs
        rw [h1] at r1
        exact r1
      | raise q st1 =>
        have r1 := ih act e p st hp hs
        rw [h1] at r1
        exact r1
      | fail st1 =>
        have r1 := ih act e p st hp hs
        rw [h1] at r1
        change ResOk src (match run f act r p st1 with
          | Res.ok q2 st2 => run f act (PEG.until_ e r) q2 st2
          | Res.fail st2 => Res.fail st2
          | Res.raise q2 st2 => Res.raise q2 st2)
        cases h2 : run f act r p st1 with
        | ok q st2 =>
          have r2 := ih act r p st1 hp r1
          rw [h2] at r2
          obtain ⟨hw2, hn2⟩ := r2
          exact ih act (.until_ e r) q st2 hw2 hn2
        | fail st2 =>
          have r2 := ih act r p st1 hp r1
          rw [h2] at r2
          exact r2
        | raise q st2 =>
          have r2 := ih act r p st1 hp r1
          rw [h2] at r2
          exact r2
    | ref rn =>
      simp only [run]
      cases h1 : run f act (lua53.rules rn) p st with
      | fail st1 =>
        have r1 := ih act (lua53.rules rn) p st hp hs
        rw [h1] at r1
        exact r1
      | raise q st1 =>
        have r1 := ih act (lua53.rules rn) p st hp hs
        rw [h1] at r1
        exact r1
      | ok q st1 =>
        have r1 := ih act (lua53.rules rn) p st hp hs
        rw [h1] at r1
        obtain ⟨hw1, hn1⟩ := r1
        cases act with
        | false => exact ⟨hw1, hn1⟩
        | true =>
          refine ⟨hw1, ?_⟩
          by_cases hrn : rn = .notequalR
          · subst hrn
            have hstr := run_str_ok h1
            obtain ⟨hst, hm⟩ := hstr
            subst hst
            obtain ⟨t, hpre⟩ := matchStr_prefix _ _ _ hm
            have hdrop : src.drop p.off = '!' :: '=' :: t := by
              unfold Wf at hp
              rw [← hp, ← hpre]
              rfl
            have ha : src[p.off]? = some '!' := by
              have hg := List.getElem?_drop src p.off 0
              rw [hdrop] at hg
              simpa using hg.symm
            have hb : src[p.off + 1]? = some '=' := by
              have hg := List.getElem?_drop src p.off 1
              rw [hdrop] at hg
              simpa using hg.symm
            show NeInv src (pushNE p.off st1.ne)
            exact ⟨pushNE_points hn1.1 ha hb, pushNE_chain hn1.2⟩
          · show NeInv src (applyAct rn p q st1).ne
            rw [applyAct_ne_other hrn]
            exact hn1
    | eofP =>
      simp only [run]
      cases hr : p.rest with
      | nil => simpa [ResOk] using ⟨hp, hs⟩
      | cons c r => simpa [ResOk] using hs
    | longBracket =>
      simp only [run]
      have L := @lbRun_spec src p st hp
      cases h1 : lbRun p st with
      | ok q st1 =>
        obtain ⟨hwq, hst⟩ := L.1 q st1 h1
        subst hst
        exact ⟨hwq, hs⟩
      | fail st1 =>
        have hst := L.2.2 st1 h1
        subst hst
        exact hs
      | raise q st1 =>
        have hst := L.2.1 q st1 h1
        subst hst
        exact hs

end Zepto8

namespace Zepto8

theorem analyze_resok (src : List Char) : ResOk src (analyze src) := by
  apply runInv src (fuelFor src) true lua53.grammar (startPos src) initSt
  · rfl
  · constructor
    · intro k hk; simp [initSt] at hk
    · simp [initSt, NeSorted]

theorem analyze_ok_inv {src : List Char} {p : Pos} {st : St}
    (h : analyze src = .ok p st) : NeInv src st.ne := by
  have hr := analyze_resok src
  rw [h] at hr
  exact hr.2

theorem applyNE_length (ne : List Nat) (s : List Char) :
    (applyNE ne s).length = s.length := by
  induction ne with
  | nil => rfl
  | cons a t ih => simp [applyNE] at ih ⊢; rw [ih]

theorem applyNE_get_not_mem {s : List Char} :
    ∀ {ne : List Nat} {j : Nat}, j ∉ ne → (applyNE ne s)[j]? = s[j]? := by
  intro ne
  induction ne with
  | nil => intro j _; rfl
  | cons a t ih =>
    intro j hj
    have hja : j ≠ a := fun h => hj (h ▸ List.mem_cons_self a t)
    have hjt : j ∉ t := fun h => hj (List.mem_cons_of_mem a h)
    show ((applyNE t s).set a '~')[j]? = s[j]?
    rw [List.getElem?_set_ne (fun h => hja h.symm)]
    exact ih hjt

theorem applyNE_get_mem {s : List Char} :
    ∀ {ne : List Nat} {k : Nat}, k ∈ ne → k < s.length → (applyNE ne s)[k]? = some '~' := by
  intro ne
  induction ne with
  | nil => intro k hk _; simp at hk
  | cons a t ih =>
    intro k hk hlen
    show ((applyNE t s).set a '~')[k]? = some '~'
    by_cases hka : k = a
    · subst hka
      rw [List.getElem?_set_self]
      rw [applyNE_length]
      exact hlen
    · rw [List.getElem?_set_ne (fun h => hka h.symm)]
      rcases List.mem_cons.mp hk with h | h
      · exact absurd h hka
      · exact ih h hlen

theorem applyNE_perm {s : List Char} :
    ∀ {l l' : List Nat}, l.Perm l' → applyNE l s = applyNE l' s := by
  intro l l' h
  induction h with
  | nil => rfl
  | cons x _ ih =>
    show (applyNE _ s).set x '~' = (applyNE _ s).set x '~'
    rw [ih]
  | swap x y l =>
    show ((applyNE l s).set x '~').set y '~' = ((applyNE l s).set y '~').set x '~'
    by_cases hxy : x = y
    · subst hxy; rfl
    · exact List.set_comm _ _ _ (fun h => hxy h.symm) ▸ rfl
  | trans _ _ ih1 ih2 => exact ih1.trans ih2

end Zepto8

namespace Zepto8

theorem findOpF_some {line : List Char} :
    ∀ (f byte j : Nat), byte ≤ j → j < line.length →
      (line.getD j ' ' = '=' && opsC.contains (line.getD (j - 1) ' ')) = true →
      (∀ i, byte ≤ i → i < j →
        ¬((line.getD i ' ' = '=' && opsC.contains (line.getD (i - 1) ' ')) = true)) →
      line.length + 1 - byte ≤ f →
      findOpF line f byte = some j := by
  intro f
  induction f with
  | zero =>
    intro byte j hbj hj _ _ hf
    omega
  | succ f2 ih =>
    intro byte j hbj hj hPj hmin hf
    unfold findOpF
    have hblen : byte < line.length := Nat.lt_of_le_of_lt hbj hj
    rw [if_pos hblen]
    by_cases hPb : (line.getD byte ' ' = '=' && opsC.contains (line.getD (byte - 1) ' ')) = true
    · have hbeq : byte = j := by
        by_contra hne
        exact hmin byte le_rfl (by omega) hPb
      rw [if_pos hPb, hbeq]
    · rw [if_neg hPb]
      have hblt : byte < j := by
        rcases Nat.lt_or_ge byte j with h | h
        · exact h
        · have : byte = j := by omega
          exact absurd (this ▸ hPj) hPb
      exact ih (byte + 1) j (by omega) hj hPj
        (fun i h1 h2 => hmin i (by omega) h2) (by omega)

theorem rewriteOnce_general (lhs rhs : List Char) (c : Char)
    (hc : c ∈ opsC) (hl : '=' ∉ lhs) :
    rewriteOnce 0 (lhs ++ c :: '=' :: rhs).length (lhs ++ c :: '=' :: rhs)
      = lhs ++ '=' :: lhs ++ c :: '(' :: rhs ++ [')'] := by
  have hcne : c ≠ '=' := by
    intro h
    subst h
    simp [opsC] at hc
  have hgetm : (lhs ++ c :: '=' :: rhs).getD lhs.length ' ' = c := by
    rw [List.getD_eq_getElem?_getD, List.getElem?_append_right le_rfl]
    simp
  have hfind : findOp (lhs ++ c :: '=' :: rhs) 0 = some (lhs.length + 1) := by
    unfold findOp
    apply findOpF_some
    · omega
    · simp
    · have hg1 : (lhs ++ c :: '=' :: rhs).getD (lhs.length + 1) ' ' = '=' := by
        rw [List.getD_eq_getElem?_getD, List.getElem?_append_right (by omega)]
        have h1 : lhs.length + 1 - lhs.length = 1 := by omega
        rw [h1]
        simp
      have h2 : lhs.length + 1 - 1 = lhs.length := by omega
      rw [hg1, h2, hgetm]
      simp
      simpa [opsC] using hc
    · intro i _ hij hP
      rcases Nat.lt_or_ge i lhs.length with hi | hi
      · rw [List.getD_eq_getElem?_getD, List.getElem?_append_left hi] at hP
        cases hg : lhs[i]? with
        | none => rw [hg] at hP; simp at hP
        | some x =>
          rw [hg] at hP
          simp at hP
          have hx : x ∈ lhs := List.getElem?_mem hg
          exact hl (hP.1 ▸ hx)
      · have hieq : i = lhs.length := by omega
        subst hieq
        rw [hgetm] at hP
        simp [hcne] at hP
    · omega
  simp only [rewriteOnce, hfind]
  have h0 : lhs.length + 1 - 1 = lhs.length := by omega
  have hA : (lhs ++ c :: '=' :: rhs) = (lhs ++ [c, '=']) ++ rhs := by simp
  have hsub1 : subL (lhs ++ c :: '=' :: rhs) 0 (lhs.length + 1 - 1) = lhs := by
    rw [h0]
    unfold subL
    rw [List.drop_zero, List.take_left]
  have hsub2 : subL (lhs ++ c :: '=' :: rhs) 0 (lhs.length + 1 - 1 - 0) = lhs := by
    simpa using hsub1
  have hsub3 : subL (lhs ++ c :: '=' :: rhs) (lhs.length + 1 + 1)
      (0 + (lhs ++ c :: '=' :: rhs).length - (lhs.length + 1) - 1) = rhs := by
    unfold subL
    have hd : (lhs ++ c :: '=' :: rhs).drop (lhs.length + 1 + 1) = rhs := by
      have hq : lhs.length + 1 + 1 = (lhs ++ [c, '=']).length := by simp
      rw [hA, hq, List.drop_left]
    rw [hd]
    have hn : 0 + (lhs ++ c :: '=' :: rhs).length - (lhs.length + 1) - 1 = rhs.length := by
      simp
      omega
    rw [hn, List.take_length]
  rw [hsub1, hsub2, hsub3, h0, hgetm]
  have hz : 0 + (lhs ++ c :: '=' :: rhs).length = (lhs ++ c :: '=' :: rhs).length := by omega
  rw [hz, List.drop_length]

end Zepto8

namespace Zepto8

theorem splitNl_ne_nil : ∀ (s : List Char), splitNl s ≠ [] := by
  intro s
  cases s with
  | nil => simp [splitNl]
  | cons c r =>
    unfold splitNl
    by_cases hc : c = '\n'
    · simp [hc]
    · simp only [hc, if_false]
      cases splitNl r with
      | nil => simp
      | cons l ls => simp

theorem joinNl_splitNl : ∀ (s : List Char), joinNl (splitNl s) = s ++ ['\n'] := by
  intro s
  induction s with
  | nil => rfl
  | cons c r ih =>
    unfold splitNl
    by_cases hc : c = '\n'
    · subst hc
      simp only [if_pos rfl]
      show '\n' :: joinNl (splitNl r) = '\n' :: r ++ ['\n']
      rw [ih]
      rfl
    · simp only [hc, if_false]
      cases hsp : splitNl r with
      | nil => exact absurd hsp (splitNl_ne_nil r)
      | cons l ls =>
        show (c :: l) ++ '\n' :: joinNl ls = (c :: r) ++ ['\n']
        have : joinNl (l :: ls) = r ++ ['\n'] := hsp ▸ ih
        have h2 : l ++ '\n' :: joinNl ls = r ++ ['\n'] := this
        simpa using h2

theorem fixLine_nil (l : Nat) (line : List Char) : fixLine [] l line = line := rfl

theorem fixLines_nil : ∀ (n : Nat) (ls : List (List Char)), fixLines [] n ls = ls := by
  intro n ls
  induction ls generalizing n with
  | nil => rfl
  | cons l t ih => simp [fixLines, fixLine_nil, ih]

theorem noNl_splitNl : ∀ (s : List Char), ∀ l ∈ splitNl s, '\n' ∉ l := by
  intro s
  induction s with
  | nil => intro l hl; simp [splitNl] at hl; simp [hl]
  | cons c r ih =>
    intro l hl
    unfold splitNl at hl
    by_cases hc : c = '\n'
    · simp [hc] at hl
      rcases hl with hl | hl
      · simp [hl]
      · exact ih l hl
    · simp only [hc, if_false] at hl
      cases hsp : splitNl r with
      | nil => exact absurd hsp (splitNl_ne_nil r)
      | cons l2 ls =>
        rw [hsp] at hl
        simp at hl
        rcases hl with hl | hl
        · subst hl
          intro hmem
          rcases List.mem_cons.mp hmem with h | h
          · exact hc h.symm
          · exact ih l2 (hsp ▸ List.mem_cons_self l2 ls) h
        · exact ih l (hsp ▸ List.mem_cons_of_mem l2 hl)

theorem splitNl_prepend_line (a : List Char) (hna : '\n' ∉ a) :
    ∀ (r : List Char), splitNl (a ++ '\n' :: r) = a :: splitNl r := by
  induction a with
  | nil => intro r; simp [splitNl]
  | cons c a2 ih =>
    intro r
    have hc : c ≠ '\n' := fun h => hna (h ▸ List.mem_cons_self c a2)
    have hna2 : '\n' ∉ a2 := fun h => hna (List.mem_cons_of_mem c h)
    show splitNl (c :: (a2 ++ '\n' :: r)) = (c :: a2) :: splitNl r
    simp only [splitNl]
    rw [if_neg hc, ih hna2 r]

theorem splitNl_joinNl (ls : List (List Char)) (h : ∀ l ∈ ls, '\n' ∉ l) :
    splitNl (joinNl ls) = ls ++ [[]] := by
  induction ls with
  | nil => rfl
  | cons l t ih =>
    show splitNl (l ++ '\n' :: joinNl t) = (l :: t) ++ [[]]
    rw [splitNl_prepend_line l (h l (List.mem_cons_self l t))]
    rw [ih (fun x hx => h x (List.mem_cons_of_mem l hx))]
    rfl

theorem fixLines_length (rs : List (Nat × Nat × Nat)) :
    ∀ (n : Nat) (ls : List (List Char)), (fixLines rs n ls).length = ls.length := by
  intro n ls
  induction ls generalizing n with
  | nil => rfl
  | cons l t ih => simp [fixLines, ih]

theorem fixLines_getElem? (rs : List (Nat × Nat × Nat)) :
    ∀ (ls : List (List Char)) (n i : Nat),
      (fixLines rs n ls)[i]? = Option.map (fixLine rs (n + i)) ls[i]? := by
  intro ls
  induction ls with
  | nil => intro n i; rfl
  | cons l t ih =>
    intro n i
    cases i with
    | zero => simp [fixLines]
    | succ i2 =>
      simp only [fixLines, List.getElem?_cons_succ]
      rw [ih (n + 1) i2]
      have h3 : n + 1 + i2 = n + (i2 + 1) := by omega
      rw [h3]

theorem fixLine_no_match {l : Nat} :
    ∀ (rs : List (Nat × Nat × Nat)) (line : List Char),
      (∀ r ∈ rs, r.1 ≠ l + 1) → fixLine rs l line = line := by
  intro rs
  induction rs with
  | nil => intro line _; rfl
  | cons r t ih =>
    intro line h
    show List.foldl _ (if r.1 = l + 1 then rewriteOnce r.2.1 r.2.2 line else line) t = line
    rw [if_neg (h r (List.mem_cons_self r t))]
    exact ih line (fun x hx => h x (List.mem_cons_of_mem r hx))

end Zepto8

namespace Zepto8

theorem getD_mem_or_default (ln : List Char) (i : Nat) (d : Char) :
    ln[i]?.getD d ∈ ln ∨ ln[i]?.getD d = d := by
  cases hg : ln[i]? with
  | none => right; rfl
  | some x => left; simpa using List.getElem?_mem hg

theorem noNl_rewriteOnce {line : List Char} (h : '\n' ∉ line) (start len : Nat) :
    '\n' ∉ rewriteOnce start len line := by
  unfold rewriteOnce
  cases hf : findOp line start with
  | none => exact h
  | some byte =>
    intro hmem
    simp only [subL, List.mem_append, List.mem_cons] at hmem
    rcases hmem with ((h1 | h1 | h1) | h1 | h1 | h1) | h1 | h1
    · exact h (List.drop_subset 0 line (List.take_subset _ _ h1))
    · simp at h1
    · exact h (List.drop_subset start line (List.take_subset _ _ h1))
    · rcases getD_mem_or_default line (byte - 1) ' ' with hm | hm
      · rw [List.getD_eq_getElem?_getD] at h1
        exact h (h1 ▸ hm)
      · rw [List.getD_eq_getElem?_getD] at h1
        rw [hm] at h1
        simp at h1
    · simp at h1
    · exact h (List.drop_subset _ line (List.take_subset _ _ h1))
    · simp at h1
    · exact h (List.drop_subset _ line h1)

theorem noNl_fixLine {l : Nat} :
    ∀ (rs : List (Nat × Nat × Nat)) (line : List Char),
      '\n' ∉ line → '\n' ∉ fixLine rs l line := by
  intro rs
  induction rs with
  | nil => intro line h; exact h
  | cons r t ih =>
    intro line h
    show '\n' ∉ List.foldl _ (if r.1 = l + 1 then rewriteOnce r.2.1 r.2.2 line else line) t
    by_cases hr : r.1 = l + 1
    · rw [if_pos hr]
      exact ih _ (noNl_rewriteOnce h r.2.1 r.2.2)
    · rw [if_neg hr]
      exact ih line h

theorem noNl_fixLines (rs : List (Nat × Nat × Nat)) :
    ∀ (ls : List (List Char)) (n : Nat), (∀ l ∈ ls, '\n' ∉ l) →
      ∀ l2 ∈ fixLines rs n ls, '\n' ∉ l2 := by
  intro ls
  induction ls with
  | nil => intro n _ l2 h2; simp [fixLines] at h2
  | cons l t ih =>
    intro n h l2 h2
    rcases List.mem_cons.mp h2 with h2 | h2
    · subst h2
      exact noNl_fixLine rs l (h l (List.mem_cons_self l t))
    · exact ih (n + 1) (fun x hx => h x (List.mem_cons_of_mem l hx)) l2 h2

theorem findSub_spec (pat : List Char) :
    ∀ (s : List Char) (i : Nat), findSub pat s = some i →
      s.take i ++ pat ++ s.drop (i + pat.length) = s := by
  intro s
  induction s with
  | nil =>
    intro i h
    unfold findSub at h
    by_cases hp : pat = []
    · rw [if_pos hp] at h
      simp at h
      subst hp
      rw [← h]
      rfl
    · rw [if_neg hp] at h
      simp at h
  | cons c r ih =>
    intro i h
    unfold findSub at h
    by_cases hp : pat.isPrefixOf (c :: r)
    · rw [if_pos hp] at h
      simp at h
      subst h
      obtain ⟨t, ht⟩ := List.isPrefixOf_iff_prefix.mp hp
      show pat ++ (c :: r).drop (0 + pat.length) = c :: r
      rw [← ht]
      have h0 : 0 + pat.length = pat.length := by omega
      rw [h0, List.drop_left]
    · rw [if_neg hp] at h
      cases hf : findSub pat r with
      | none => rw [hf] at h; simp at h
      | some j =>
        rw [hf] at h
        simp at h
        subst h
        have hd : j + 1 + pat.length = (j + pat.length) + 1 := by omega
        rw [List.take_succ_cons, hd, List.drop_succ_cons]
        show c :: (r.take j ++ pat ++ r.drop (j + pat.length)) = c :: r
        rw [ih j hf]

theorem findSub_first (pat : List Char) :
    ∀ (s : List Char) (i : Nat), findSub pat s = some i →
      ∀ j < i, ¬ pat <+: s.drop j := by
  intro s
  induction s with
  | nil =>
    intro i h j hj
    unfold findSub at h
    by_cases hp : pat = []
    · rw [if_pos hp] at h
      simp at h
      omega
    · rw [if_neg hp] at h
      simp at h
  | cons c r ih =>
    intro i h j hj
    unfold findSub at h
    by_cases hp : pat.isPrefixOf (c :: r)
    · rw [if_pos hp] at h
      simp at h
      omega
    · rw [if_neg hp] at h
      cases hf : findSub pat r with
      | none => rw [hf] at h; simp at h
      | some j2 =>
        rw [hf] at h
        simp at h
        subst h
        cases j with
        | zero =>
          intro hpre
          exact hp (List.isPrefixOf_iff_prefix.mpr hpre)
        | succ k =>
          rw [List.drop_succ_cons]
          exact ih j2 hf k (by omega)

end Zepto8

namespace Zepto8

/-- C1 (amended): the rewrite replaces at the first position, scanning
from the occurrence start, where `=` is preceded by one of `+-*/%`.  For
a line that is a single recorded occurrence `lhs <op>= rhs` whose
left-hand side contains no `=` character, that first position is the
compound operator itself and the rewrite produces `lhs=lhs<op>(rhs)`
with the right-hand side parenthesized; in particular the line `a+=1`
is rewritten to `a=a+(1)`, `a-=b*c` to `a=a-(b*c)` and `x/=y+1` to
`x=x/(y+1)` (the fixer terminates every output line with a newline;
`textLines` recovers the lines).  Without the proviso the scan can match
an `=` inside the left-hand side and mangle the line, so the original
universal claim is false (see the counterexample). -/
theorem C1_compound_assignment_rewrite :
    (∀ (lhs rhs : List Char) (c : Char), c ∈ opsC → '=' ∉ lhs →
      rewriteOnce 0 (lhs ++ c :: '=' :: rhs).length (lhs ++ c :: '=' :: rhs)
        = lhs ++ '=' :: lhs ++ c :: '(' :: rhs ++ [')']) ∧
    (∀ (start len : Nat) (ln : List Char),
      fixLine [(1, start, len)] 0 ln = rewriteOnce start len ln) ∧
    (fixResult "a+=1".data).map textLines = .ok ["a=a+(1)".data] ∧
    (fixResult "a-=b*c".data).map textLines = .ok ["a=a-(b*c)".data] ∧
    (fixResult "x/=y+1".data).map textLines = .ok ["x=x/(y+1)".data] := by
  refine ⟨rewriteOnce_general, ?_, rfl, rfl, rfl⟩
  intro start len ln
  rfl

/-- C1 witness: the general rewrite shape instantiated at the line
`a+=1` (so `lhs = a`, operator `+`, `rhs = 1`). -/
theorem C1_witness :
    rewriteOnce 0 ("a".data ++ '+' :: '=' :: "1".data).length
        ("a".data ++ '+' :: '=' :: "1".data)
      = "a".data ++ '=' :: "a".data ++ '+' :: '(' :: "1".data ++ [')'] :=
  C1_compound_assignment_rewrite.1 "a".data "1".data '+' (by decide) (by decide)

/-- C1 counterexample: the line `a["x+="]/=2` yields exactly one
recorded compound-assignment occurrence (line 1, start 0, length 11),
but the rewrite scan matches the `=` preceded by `+` inside the string
literal of the index, so fix produces the mangled `a["x=a["x+("]/=2)`
instead of the `lhs=lhs<op>(rhs)` form `a["x+="]=a["x+="]/(2)`. -/
theorem C1_cx :
    analyze "a[\"x+=\"]/=2".data = .ok ⟨11, 1, 11, []⟩ ⟨[], [(1, 0, 11)], []⟩ ∧
    fixResult "a[\"x+=\"]/=2".data = .ok ("a[\"x=a[\"x+(\"]/=2)".data ++ ['\n']) ∧
    fixResult "a[\"x+=\"]/=2".data ≠ .ok ("a[\"x+=\"]=a[\"x+=\"]/(2)".data ++ ['\n']) := by
  refine ⟨rfl, rfl, ?_⟩
  intro hcontra
  have h1 : fixResult "a[\"x+=\"]/=2".data
      = .ok ("a[\"x=a[\"x+(\"]/=2)".data ++ ['\n']) := rfl
  rw [h1] at hcontra
  have h2 := Except.ok.inj hcontra
  exact absurd (congrArg List.length h2) (by decide)

/-- C2: whenever the analysis parse succeeds, every recorded `!=` offset
`k` is rewritten in place: the substituted text has the same length, holds
`~` at byte `k` and `=` at byte `k+1`, leaves every other byte unchanged,
and the result is independent of the order the offsets are applied in. -/
theorem C2_notequal_substitution (src : List Char) (p : Pos) (st : St)
    (h : analyze src = .ok p st) :
    ∀ k ∈ st.ne,
      (applyNE st.ne src).length = src.length ∧
      (applyNE st.ne src)[k]? = some '~' ∧
      (applyNE st.ne src)[k + 1]? = some '=' ∧
      (∀ j, j ∉ st.ne → (applyNE st.ne src)[j]? = src[j]?) ∧
      (∀ ne2 : List Nat, ne2.Perm st.ne → applyNE ne2 src = applyNE st.ne src) := by
  intro k hk
  have hinv := analyze_ok_inv h
  obtain ⟨hb, he⟩ := hinv.1 k hk
  have hklen : k < src.length := by
    by_contra hge
    rw [List.getElem?_eq_none (by omega)] at hb
    exact Option.noConfusion hb
  refine ⟨applyNE_length st.ne src, applyNE_get_mem hk hklen, ?_, ?_, ?_⟩
  · have hnot : k + 1 ∉ st.ne := by
      intro hmem
      obtain ⟨hb2, _⟩ := hinv.1 (k + 1) hmem
      rw [he] at hb2
      exact absurd (Option.some.inj hb2) (by decide)
    rw [applyNE_get_not_mem hnot]
    exact he
  · intro j hj
    exact applyNE_get_not_mem hj
  · intro ne2 hperm
    exact applyNE_perm hperm

/-- C2 witness: the analysis of `p=q!=r` records offset 3, and the
substituted text holds `~` there. -/
theorem C2_witness :
    analyze "p=q!=r".data = .ok ⟨6, 1, 6, []⟩ ⟨[3], [], []⟩ ∧
    (applyNE [3] "p=q!=r".data)[3]? = some '~' :=
  ⟨rfl, (C2_notequal_substitution "p=q!=r".data ⟨6, 1, 6, []⟩ ⟨[3], [], []⟩ rfl
    3 (List.mem_singleton.mpr rfl)).2.1⟩

/-- C3 counterexample: `fix` of the dialect-free source `x=1` is not the
identity — the rewrite loop appends `'\n'` after every processed line, so
the output is `x=1` followed by a newline, not `x=1` byte for byte. -/
theorem C3_cx :
    fixResult "x=1".data = .ok ("x=1".data ++ ['\n']) ∧
    fixResult "x=1".data ≠ .ok "x=1".data := by
  constructor
  · rfl
  · intro hcontra
    have h1 : fixResult "x=1".data = .ok ("x=1".data ++ ['\n']) := rfl
    rw [h1] at hcontra
    cases hcontra

/-- C3 amended: for every source with no boot-shim substring whose
analysis parse succeeds recording no dialect occurrence (no `!=`, no
compound assignment), fix returns the source unchanged except for exactly
one appended trailing newline: `fix(s) = s ++ "\n"`. -/
theorem C3_amended (s : List Char) (p : Pos) (st : St)
    (hshim : findSub bootShim s = none)
    (h : analyze s = .ok p st) (hne : st.ne = []) (hrs : st.rs = []) :
    fixResult s = .ok (s ++ ['\n']) := by
  have hpatch : patch s = s := by
    unfold patch
    rw [hshim]
  unfold fixResult
  rw [hpatch]
  show (match analyze s with
    | Res.ok _ st => Except.ok (render st s)
    | Res.fail st => Except.ok (render st s)
    | Res.raise q _ => Except.error (q.line, q.col, q.off)) = Except.ok (s ++ ['\n'])
  rw [h]
  show Except.ok (render st s) = _
  unfold render reasgPass
  rw [hne, hrs]
  show Except.ok (joinNl (fixLines [] 0 (splitNl s))) = _
  rw [fixLines_nil, joinNl_splitNl]

/-- C3 witness: the amended statement applied to the concrete source
`x=1`. -/
theorem C3_witness : fixResult "x=1".data = .ok ("x=1".data ++ ['\n']) :=
  C3_amended "x=1".data ⟨3, 1, 3, []⟩ ⟨[], [], []⟩ rfl rfl rfl rfl

/-- C4: for every input, a `!=` whose bytes are consumed by a
short-string or comment rule is never recorded: those rules are
reference-free PEG terms (they never reach the action-carrying
`operator_notequal` rule), and running any reference-free term returns
the occurrence state untouched on every input, every position and every
prior state.  Concretely, the two mandated inputs `x = "a != b"` and
`-- a != b` parse with an empty not-equal list and fix keeps every
input byte (appending only the trailing newline). -/
theorem C4_string_comment_protected :
    (∀ (g : PEG), refFree g = true → ∀ (fuel : Nat) (act : Bool) (p : Pos) (st : St),
      stateOf (run fuel act g p st) = st) ∧
    refFree (lua53.short_string '"') = true ∧
    refFree (lua53.short_string quoteC) = true ∧
    refFree lua53.literal_string = true ∧
    refFree lua53.comment = true ∧
    analyze "x = \"a != b\"".data = .ok ⟨12, 1, 12, []⟩ ⟨[], [], []⟩ ∧
    fixResult "x = \"a != b\"".data = .ok ("x = \"a != b\"".data ++ ['\n']) ∧
    analyze "-- a != b".data = .ok ⟨9, 1, 9, []⟩ ⟨[], [], []⟩ ∧
    fixResult "-- a != b".data = .ok ("-- a != b".data ++ ['\n']) := by
  refine ⟨?_, rfl, rfl, rfl, rfl, rfl, rfl, rfl, rfl⟩
  intro g hg fuel act p st
  exact run_refFree fuel act g hg p st

/-- C4 witness: the general state-preservation statement applied to the
comment rule running over `-- a != b` from a nonempty prior state: the
rule consumes the whole comment (including its `!=`) and the recorded
offset list survives untouched. -/
theorem C4_witness :
    stateOf (run 200 true lua53.comment (startPos "-- a != b".data) ⟨[7], [], []⟩)
      = ⟨[7], [], []⟩ :=
  C4_string_comment_protected.1 lua53.comment rfl 200 true
    (startPos "-- a != b".data) ⟨[7], [], []⟩

/-- C5: the recording action discards every previously recorded offset
`≥` the new one before pushing (first conjunct, on the action itself);
consequently the offset list stays strictly increasing in storage order
after every step and in the final state of a successful parse (second
conjunct); and the backtracking input `a[x!=y]+=1` — whose `!=` is
matched once on the abandoned `assignments` path and re-matched on the
committed `reassignment` path — ends with the single committed offset 3
(third conjunct). -/
theorem C5_backtracking_discard :
    (∀ (k : Nat) (ne : List Nat), NeSorted ne →
      pushNE k ne = k :: purge k ne ∧
      (∀ x ∈ ne, k ≤ x → x ∉ purge k ne) ∧
      NeSorted (pushNE k ne)) ∧
    (∀ (src : List Char) (p : Pos) (st : St), analyze src = .ok p st →
      List.Chain' (· < ·) st.ne.reverse) ∧
    analyze "a[x!=y]+=1".data = .ok ⟨10, 1, 10, []⟩ ⟨[3], [(1, 0, 10)], []⟩ := by
  refine ⟨?_, ?_, rfl⟩
  · intro k ne hs
    exact ⟨rfl, purge_discards hs, pushNE_chain hs⟩
  · intro src p st h
    have hinv := analyze_ok_inv h
    exact List.chain'_reverse.mpr hinv.2

/-- C5 witness: the purge applied to the strictly decreasing
(most-recent-first) list `[5, 2]` at new offset 3. -/
theorem C5_witness : NeSorted (pushNE 3 [5, 2]) :=
  (C5_backtracking_discard.1 3 [5, 2]
    (by unfold NeSorted; exact List.chain'_pair.mpr (by omega))).2.2

end Zepto8

namespace Zepto8

/-- C7: whenever the analysis parse of the patched source raises,
fix aborts with the raise's location (line, byte-in-line, byte offset)
and produces no output; concretely the unterminated string `x = "abc`
fails at line 1 byte 5 and the unbalanced `end` fails at line 1 byte 0. -/
theorem C7_parse_failure_aborts :
    (∀ (s : List Char) (p : Pos) (st : St), analyze (patch s) = .raise p st →
      fixResult s = .error (p.line, p.col, p.off) ∧ ∀ t, fixResult s ≠ .ok t) ∧
    fixResult "x = \"abc".data = .error (1, 5, 5) ∧
    fixResult "end".data = .error (1, 0, 0) := by
  refine ⟨?_, rfl, rfl⟩
  intro s p st h
  have hfix : fixResult s = .error (p.line, p.col, p.off) := by
    unfold fixResult
    show (match analyze (patch s) with
      | Res.ok _ st => Except.ok (render st (patch s))
      | Res.fail st => Except.ok (render st (patch s))
      | Res.raise q _ => Except.error (q.line, q.col, q.off)) = _
    rw [h]
  refine ⟨hfix, ?_⟩
  intro t hcontra
  rw [hfix] at hcontra
  exact Except.noConfusion hcontra

/-- C7 witness: the general abort statement applied to the unbalanced
`end` input, whose analysis raises at the start of the input. -/
theorem C7_witness :
    fixResult "end".data = .error (1, 0, 0) ∧ ∀ t, fixResult "end".data ≠ .ok t :=
  C7_parse_failure_aborts.1 "end".data ⟨0, 1, 0, "end".data⟩ ⟨[], [], []⟩ rfl

/-- C8 counterexample: the rewrite does not preserve the line count of
the text: fix of the newline-terminated dialect-free source `a=1\n`
returns `a=1\n\n`, which has 2 lines where the input has 1 — the loop
appends a newline after every split field, including the empty field
produced by the trailing newline. -/
theorem C8_cx :
    fixResult "a=1\n".data = .ok "a=1\n\n".data ∧
    (textLines "a=1\n".data).length = 1 ∧
    (textLines "a=1\n\n".data).length = 2 :=
  ⟨rfl, rfl, rfl⟩

/-- C8 amended: the compound-assignment pass maps the split fields of the
text it processes one to one (the output's lines are exactly the
processed fields, same count), every field with no matching recorded
occurrence is copied byte for byte, and the pass appends exactly one
trailing newline to the whole text (`reasgPass [] t = t ++ "\n"`), so the
fix output has one more newline than the (patched) input rather than the
same byte-level line structure. -/
theorem C8_amended (rs : List (Nat × Nat × Nat)) (t : List Char) :
    textLines (reasgPass rs t) = fixLines rs 0 (splitNl t) ∧
    (textLines (reasgPass rs t)).length = (splitNl t).length ∧
    (∀ (l : Nat) (ln : List Char), (splitNl t)[l]? = some ln →
      (∀ r ∈ rs, r.1 ≠ l + 1) → (textLines (reasgPass rs t))[l]? = some ln) ∧
    reasgPass [] t = t ++ ['\n'] := by
  have hnl : ∀ l ∈ fixLines rs 0 (splitNl t), '\n' ∉ l :=
    noNl_fixLines rs (splitNl t) 0 (noNl_splitNl t)
  have hsj : splitNl (joinNl (fixLines rs 0 (splitNl t)))
      = fixLines rs 0 (splitNl t) ++ [[]] :=
    splitNl_joinNl _ hnl
  have htl : textLines (reasgPass rs t) = fixLines rs 0 (splitNl t) := by
    unfold textLines reasgPass
    rw [hsj]
    simp [List.getLast?_concat, List.dropLast_concat]
  refine ⟨htl, ?_, ?_, ?_⟩
  · rw [htl, fixLines_length]
  · intro l ln hln hno
    rw [htl, fixLines_getElem?, hln]
    show some (fixLine rs (0 + l) ln) = some ln
    have h0 : 0 + l = l := by omega
    rw [h0, fixLine_no_match rs ln hno]
  · unfold reasgPass
    rw [fixLines_nil, joinNl_splitNl]

/-- C8 witness: the amended per-line statement applied to the two-line
text `a+=1\nx=1` with one recorded occurrence on line 1: line index 1
(`x=1`) is copied byte for byte. -/
theorem C8_witness :
    (textLines (reasgPass [(1, 0, 4)] "a+=1\nx=1".data))[1]? = some "x=1".data :=
  (C8_amended [(1, 0, 4)] "a+=1\nx=1".data).2.2.1 1 "x=1".data rfl (by decide)

/-- C9: when the boot-shim fragment occurs (first) at index `i`, the
patch replaces exactly that occurrence with the standard-syntax
replacement — which starts with a newline and contains `then` — and
appends a closing ` end` to the whole code; and the patched form of a
cartridge carrying the shim still parses (analysis succeeds) and is fixed
successfully. -/
theorem C9_boot_shim :
    (∀ (s : List Char) (i : Nat), findSub bootShim s = some i →
      patch s = s.take i ++ bootShimValid ++ s.drop (i + bootShim.length) ++ " end".data ∧
      s.take i ++ bootShim ++ s.drop (i + bootShim.length) = s ∧
      (∀ j < i, ¬ bootShim <+: s.drop j)) ∧
    bootShimValid = '\n' :: "if(_update60)then _update=function()".data ∧
    analyze (patch "x=1\nif(_update60)_update=function()f()end".data)
      = .ok ⟨51, 3, 46, []⟩ ⟨[], [], []⟩ ∧
    fixResult "x=1\nif(_update60)_update=function()f()end".data
      = .ok (patch "x=1\nif(_update60)_update=function()f()end".data ++ ['\n']) := by
  refine ⟨?_, rfl, rfl, rfl⟩
  intro s i h
  refine ⟨?_, findSub_spec bootShim s i h, findSub_first bootShim s i h⟩
  unfold patch
  rw [h]

/-- C9 witness: the patch shape applied to the concrete shim-carrying
cartridge, whose shim starts at byte 4. -/
theorem C9_witness :
    patch "x=1\nif(_update60)_update=function()f()end".data
      = ("x=1\nif(_update60)_update=function()f()end".data).take 4 ++ bootShimValid
        ++ ("x=1\nif(_update60)_update=function()f()end".data).drop (4 + bootShim.length)
        ++ " end".data :=
  (C9_boot_shim.1 "x=1\nif(_update60)_update=function()f()end".data 4 rfl).1

/-- C10: after a successful analysis parse every recorded not-equal
offset points at a literal `!` in the parsed source (so the rewrite's
assertion `new_code[offset] == '!'` holds and the in-place substitution
is well-defined at every recorded offset). -/
theorem C10_offsets_point_at_bang (src : List Char) (p : Pos) (st : St)
    (h : analyze src = .ok p st) :
    ∀ k ∈ st.ne, src[k]? = some '!' ∧ k < src.length := by
  intro k hk
  have hinv := analyze_ok_inv h
  obtain ⟨hb, _⟩ := hinv.1 k hk
  refine ⟨hb, ?_⟩
  by_contra hge
  rw [List.getElem?_eq_none (by omega)] at hb
  exact Option.noConfusion hb

/-- C10 witness: the analysis of `a=b!=c` records offset 3, which indeed
holds `!`. -/
theorem C10_witness :
    "a=b!=c".data[3]? = some '!' ∧ 3 < "a=b!=c".data.length :=
  C10_offsets_point_at_bang "a=b!=c".data ⟨6, 1, 6, []⟩ ⟨[3], [], []⟩ rfl
    3 (List.mem_singleton.mpr rfl)

end Zepto8
